import Mathlib

set_option maxRecDepth 8000

/-!
Shallow embedding of the token-listing tool (src/list_tokens.py).

The program scans a read-only byte buffer (a memory-mapped file) in three
stages:

* `find_vocab_section` locates the vocabulary region: the minimum offset of
  any special-token marker, extended forward to the first long run of zero
  bytes (lines 29-63 of the source).
* `findNextToken` (source `find_next_token`, lines 65-95) finds the next
  boundary-marker-delimited token span inside the region.
* `analyze_token` (lines 97-111) speculatively decodes 4-byte windows just
  before a token as little/big-endian integers.
* `listTokensParams` models the skip/window arithmetic of `list_tokens`
  (lines 123-126).

Buffers are `List Nat` (byte values), Python slices become `drop`/`take`,
and each `while` loop becomes a structurally recursive function over an
explicit fuel argument; callers pass fuel that provably dominates the
loop's iteration count, so the embedding is executable and every loop
result is reachable by kernel evaluation.
-/

/-- The 3-byte UTF-8 encoding of U+2581, the token boundary marker
(source line 67). -/
def boundaryB : List Nat := [226, 150, 129]

/-- The special-token byte strings searched for by the region locator
(source line 36). -/
def specialTokens : List (List Nat) :=
  [[60, 112, 97, 100, 62],
   [60, 101, 111, 115, 62],
   [60, 117, 110, 107, 62],
   [60, 101, 110, 100, 95, 111, 102, 95, 116, 117, 114, 110, 62]]

/-- Whether the bytes of `pat` occur in `buf` starting at absolute offset
`i` (Python `mm[i:i+len(pat)] == pat`; a slice that runs off the end of the
buffer is shorter than `pat` and never equal to it). -/
def matchAt (buf pat : List Nat) (i : Nat) : Bool :=
  (buf.drop i).take pat.length == pat

/-- Python `mm.find(pat, i, endR)`: the least offset `p ≥ i` with
`p + pat.length ≤ endR` at which `pat` occurs, `none` if there is none.
The fuel bounds the number of probed offsets; callers pass at least
`endR + 1`, which dominates the search space for nonempty patterns. -/
def findFrom : Nat → List Nat → List Nat → Nat → Nat → Option Nat
  | 0, _, _, _, _ => none
  | fuel + 1, buf, pat, endR, i =>
    if i + pat.length ≤ endR then
      if matchAt buf pat i then some i
      else findFrom fuel buf pat endR (i + 1)
    else none

/-- The first occurrence of each special token in the buffer, in the fixed
search order, matches skipped (source lines 39-43, the `special_positions`
list). -/
def specialPositions (buf : List Nat) : List Nat :=
  specialTokens.filterMap fun t => findFrom (buf.length + 1) buf t buf.length 0

/-- The null-run scan of `find_vocab_section` (source lines 49-58): walk
forward from `pos` counting consecutive zero bytes in `nc`, stopping at
the position where the count first exceeds 100, or at the end of the
buffer. -/
def scanNulls : Nat → List Nat → Nat → Nat → Nat
  | 0, _, pos, _ => pos
  | fuel + 1, buf, pos, nc =>
    if pos < buf.length then
      if (buf.drop pos).take 1 == [0] then
        if 100 < nc + 1 then pos
        else scanNulls fuel buf (pos + 1) (nc + 1)
      else scanNulls fuel buf (pos + 1) 0
    else pos

/-- The Region Locator (source `find_vocab_section`, lines 29-63): start is
the minimum offset among the matched special tokens (0 when none match),
end is the null-run scan result clamped to the buffer length. -/
def find_vocab_section (buf : List Nat) : Nat × Nat :=
  let vocab_start : Nat :=
    match specialPositions buf with
    | [] => 0
    | p :: rest => rest.foldl min p
  (vocab_start, min buf.length (scanNulls (buf.length + 1) buf vocab_start 0))

/-- The content scan of `find_next_token` (source lines 77-87): grow a
content-end cursor `ce` from just past a boundary marker, up to
`min endR bound` where `bound` is the 100-byte look-ahead limit, stopping
early at the next boundary marker or at a null byte, and recording in
`found` whether any scanned byte is printable ASCII.  `buf.getD ce 0`
models the Python byte access `mm[ce]`, which under the region invariant
`endR ≤ buf.length` is always in range. -/
def scanContent : Nat → List Nat → Nat → Nat → Nat → Bool → Nat × Bool
  | 0, _, _, _, ce, found => (ce, found)
  | fuel + 1, buf, endR, bound, ce, found =>
    if ce < min endR bound then
      if matchAt buf boundaryB ce || ((buf.drop ce).take 1 == [0]) then (ce, found)
      else
        scanContent fuel buf endR bound (ce + 1)
          (found || decide (32 ≤ buf.getD ce 0 ∧ buf.getD ce 0 ≤ 126))
    else (ce, found)

/-- The Token Segmenter's search step (source `find_next_token`, lines
65-95): from cursor `pos`, find the next boundary marker at `p` within the
region, scan its content, and accept the span `buf[p:content_end]` when a
printable byte was seen and the span is longer than the 3-byte marker;
otherwise retry from `p + 1`.  The outer fuel bounds the number of
rejected markers; the inner `findFrom` and `scanContent` fuels dominate
their loops (`endR + 1` probes, 100 content steps). -/
def findNextToken : Nat → List Nat → Nat → Nat → Option (Nat × List Nat)
  | 0, _, _, _ => none
  | fuel + 1, buf, pos, endR =>
    if pos < endR - 3 then
      match findFrom (endR + 1) buf boundaryB endR pos with
      | none => none
      | some p =>
        let sc := scanContent 101 buf endR (p + 3 + 100) (p + 3) false
        let token := (buf.drop p).take (sc.1 - p)
        if sc.2 && decide (3 < token.length) then some (p, token)
        else findNextToken fuel buf (p + 1) endR
    else none

/-- The driver loop of `list_tokens` (source lines 134-161) restricted to
the token stream it consumes: repeatedly call `find_next_token` and
advance the cursor past each accepted span (`pos += len(token)`).  The
fuel bounds the number of accepted records. -/
def segmentAll : Nat → List Nat → Nat → Nat → List (Nat × List Nat)
  | 0, _, _, _ => []
  | fuel + 1, buf, pos, endR =>
    match findNextToken (endR + 1) buf pos endR with
    | none => []
    | some (p, token) => (p, token) :: segmentAll fuel buf (p + token.length) endR

/-- The full token sequence the Segmenter emits over a region: each
accepted record advances the cursor by at least 4 bytes, so `endR + 1`
records of fuel always suffice. -/
def segmentTokens (buf : List Nat) (start endR : Nat) : List (Nat × List Nat) :=
  segmentAll (endR + 1) buf start endR

/-- Endianness tag attached to an inferred identifier candidate (the
source's string tags 'LE' and 'BE'). -/
inductive Endian
  | LE
  | BE
deriving DecidableEq, Repr

/-- The candidates `analyze_token` appends for one probed offset `i`
(source lines 101-110): the guard `i + 4 ≤ pos` is the source's inner
`if`, and a slice shorter than 4 bytes makes `struct.unpack` raise, which
the source's `try/except` turns into no candidates. -/
def idsAt (buf : List Nat) (pos : Nat) (i : Nat) : List (Nat × Endian) :=
  if i + 4 ≤ pos then
    match (buf.drop i).take 4 with
    | [b0, b1, b2, b3] =>
      let val_le := b0 + 256 * b1 + 65536 * b2 + 16777216 * b3
      let val_be := b3 + 256 * b2 + 65536 * b1 + 16777216 * b0
      (if 0 < val_le ∧ val_le < 100000 then [(val_le, Endian.LE)] else []) ++
        (if (0 < val_be ∧ val_be < 100000) ∧ val_be ≠ val_le then [(val_be, Endian.BE)] else [])
    | _ => []
  else []

/-- The Identifier Inferrer (source `analyze_token`, lines 97-111): probe
every offset of `range(max(vocab_start, pos - 8), pos)` in ascending
order.  Truncated `Nat` subtraction in `pos - 8` agrees with Python's
`max` against a negative number because `vocab_start ≥ 0`. -/
def analyze_token (buf : List Nat) (pos vocab_start : Nat) : List (Nat × Endian) :=
  (List.range' (max vocab_start (pos - 8)) (pos - max vocab_start (pos - 8))).flatMap
    (idsAt buf pos)

/-- The skip/window adjustment of `list_tokens` (source lines 123-126):
with a positive window the displayed count becomes the window and the
skip is recentred to `max(0, skip - window // 2)`; `Int.fdiv` is Python's
floor division. -/
def listTokensParams (num_tokens skip window : Int) : Int × Int :=
  if 0 < window then (window, max 0 (skip - Int.fdiv window 2)) else (num_tokens, skip)

/-- Modelled from the spec: the count of consecutive zero bytes at
position `p` when scanning forward from `start`, i.e. the length of the
maximal all-zero run that ends at `p` and stays at or after `start`. -/
def zeroRunCount (buf : List Nat) (start : Nat) : Nat → Nat
  | 0 => if start = 0 ∧ (buf.drop 0).take 1 == [0] then 1 else 0
  | p + 1 =>
    if start ≤ p + 1 ∧ (buf.drop (p + 1)).take 1 == [0] then zeroRunCount buf start p + 1
    else 0

/-- Modelled from the spec: the region end is the first position, scanning
forward from `start`, at which the count of consecutive zero bytes exceeds
100, and the buffer length when no such position exists before the end of
the buffer. -/
def specRegionEnd (buf : List Nat) (start : Nat) : Nat :=
  match (List.range' start (buf.length - start)).find?
      (fun p => decide (100 < zeroRunCount buf start p)) with
  | some p => p
  | none => buf.length

/-- The zero-run count at the position just before `pos` (0 at the scan
start), the value the locator's `null_count` holds when its loop reaches
`pos`. -/
def zeroRunBefore (buf : List Nat) (start : Nat) : Nat → Nat
  | 0 => 0
  | q + 1 => zeroRunCount buf start q

/-- Modelled from the spec: the little-endian 32-bit unsigned decode of
the bytes at offsets `[i, i+4)`. -/
def valLE (buf : List Nat) (i : Nat) : Nat :=
  buf.getD i 0 + 256 * buf.getD (i + 1) 0 + 65536 * buf.getD (i + 2) 0 +
    16777216 * buf.getD (i + 3) 0

/-- Modelled from the spec: the big-endian 32-bit unsigned decode of the
bytes at offsets `[i, i+4)`. -/
def valBE (buf : List Nat) (i : Nat) : Nat :=
  buf.getD (i + 3) 0 + 256 * buf.getD (i + 2) 0 + 65536 * buf.getD (i + 1) 0 +
    16777216 * buf.getD i 0

/-- Modelled from the spec: the candidates the Inferrer emits at one
probed offset whose 4-byte window is available — the little-endian value
when it lies strictly between 0 and 100000, then the big-endian value
under the same range condition when it differs from the little-endian
value. -/
def emitAt (buf : List Nat) (i : Nat) : List (Nat × Endian) :=
  (if 0 < valLE buf i ∧ valLE buf i < 100000 then [(valLE buf i, Endian.LE)] else []) ++
    (if (0 < valBE buf i ∧ valBE buf i < 100000) ∧ valBE buf i ≠ valLE buf i then
      [(valBE buf i, Endian.BE)]
    else [])

/-- The end-to-end scenario buffer of the spec: a 200-byte buffer whose
bytes 0-9 and 15-49 are the printable filler 65, with the special token
string for the padding marker at offsets 10-14 and zero bytes at offsets
50-199 (a 150-byte run). -/
def c1buf : List Nat :=
  List.replicate 10 65 ++ [60, 112, 97, 100, 62] ++ List.replicate 35 65 ++
    List.replicate 150 0

/-- A small demonstration buffer: a boundary marker, five printable
content bytes, and a terminating null. -/
def demoBuf : List Nat := [226, 150, 129, 104, 101, 108, 108, 111, 0]

/-- A buffer whose only special token is the end-of-sequence marker at
offset 0, followed by a short (sub-threshold) run of zeros. -/
def eosBuf : List Nat := [60, 101, 111, 115, 62] ++ List.replicate 20 0

/-- A buffer that starts with two adjacent boundary markers: the first is
rejected by the Segmenter because no content separates them. -/
def markerPairBuf : List Nat := [226, 150, 129, 226, 150, 129, 65, 66, 67, 0]

/-- A buffer of two 4-byte windows holding the values 1 (little-endian)
and 2 (big-endian). -/
def idBuf : List Nat := [1, 0, 0, 0, 2, 0, 0, 0]

/-- A 3-byte buffer: every 4-byte decode window runs off its end. -/
def shortBuf : List Nat := [1, 2, 3]

example : findFrom 20 [1, 2, 60, 112, 97, 100, 62, 3] [60, 112, 97, 100, 62] 8 0 = some 2 := by decide
example : scanNulls 20 [1, 0, 0, 2] 0 0 = 4 := by decide
example : find_vocab_section [60, 112, 97, 100, 62, 7] = (0, 6) := by decide
example : segmentTokens [226, 150, 129, 104, 101, 108, 108, 111, 0] 0 9 =
    [(0, [226, 150, 129, 104, 101, 108, 108, 111])] := by decide
example : analyze_token [1, 0, 0, 0, 2, 0, 0, 0] 8 0 =
    [(1, Endian.LE), (2, Endian.BE), (512, Endian.BE), (512, Endian.LE), (2, Endian.LE)] := by
  decide
example : listTokensParams 50 1000 150 = (150, 925) := by decide
example : find_vocab_section c1buf = (10, 150) := by decide
example : specRegionEnd c1buf 10 = 150 := by decide
example : segmentTokens demoBuf 0 9 = [(0, [226, 150, 129, 104, 101, 108, 108, 111])] := by decide

theorem findFrom_some {fuel : Nat} {buf pat : List Nat} {endR i p : Nat}
    (h : findFrom fuel buf pat endR i = some p) :
    i ≤ p ∧ p + pat.length ≤ endR ∧ matchAt buf pat p = true ∧
      ∀ j, i ≤ j → j < p → matchAt buf pat j = false := by
  induction fuel generalizing i with
  | zero => simp [findFrom] at h
  | succ f ih =>
    rw [findFrom] at h
    by_cases h1 : i + pat.length ≤ endR
    · rw [if_pos h1] at h
      by_cases h2 : matchAt buf pat i = true
      · rw [if_pos h2] at h
        obtain rfl : i = p := Option.some.inj h
        exact ⟨Nat.le_refl _, h1, h2, fun j hj1 hj2 => absurd (Nat.lt_of_le_of_lt hj1 hj2)
          (Nat.lt_irrefl _)⟩
      · rw [if_neg h2] at h
        obtain ⟨hip, hle, hm, hmin⟩ := ih h
        refine ⟨Nat.le_trans (Nat.le_succ i) hip, hle, hm, fun j hj1 hj2 => ?_⟩
        rcases Nat.eq_or_lt_of_le hj1 with hj | hj
        · rw [hj] at h2
          simp only [Bool.not_eq_true] at h2
          exact h2
        · exact hmin j hj hj2
    · rw [if_neg h1] at h
      exact absurd h (by simp)

theorem foldl_min_mem (l : List Nat) (a : Nat) : l.foldl min a ∈ a :: l := by
  induction l generalizing a with
  | nil => simp
  | cons b t ih =>
    have h := ih (min a b)
    rw [List.foldl_cons]
    rcases List.mem_cons.mp h with h | h
    · rw [h]
      rcases min_choice a b with he | he <;> rw [he] <;> simp
    · exact List.mem_cons.mpr (Or.inr (List.mem_cons.mpr (Or.inr h)))

theorem foldl_min_le (l : List Nat) : ∀ (a : Nat), ∀ q ∈ a :: l, l.foldl min a ≤ q := by
  induction l with
  | nil => simp
  | cons b t ih =>
    intro a q hq
    have hbase : t.foldl min (min a b) ≤ min a b := ih (min a b) _ (List.mem_cons_self _ _)
    rw [List.foldl_cons]
    rcases List.mem_cons.mp hq with rfl | hq
    · exact Nat.le_trans hbase (Nat.min_le_left _ _)
    · rcases List.mem_cons.mp hq with rfl | hq
      · exact Nat.le_trans hbase (Nat.min_le_right _ _)
      · exact ih (min a b) q (List.mem_cons.mpr (Or.inr hq))

theorem scanNulls_ge (fuel : Nat) (buf : List Nat) (pos nc : Nat) :
    pos ≤ scanNulls fuel buf pos nc := by
  induction fuel generalizing pos nc with
  | zero => simp [scanNulls]
  | succ f ih =>
    rw [scanNulls]
    by_cases h1 : pos < buf.length
    · rw [if_pos h1]
      by_cases h2 : (buf.drop pos).take 1 == [0]
      · rw [if_pos h2]
        by_cases h3 : 100 < nc + 1
        · rw [if_pos h3]
        · rw [if_neg h3]
          exact Nat.le_trans (Nat.le_succ pos) (ih (pos + 1) (nc + 1))
      · rw [if_neg h2]
        exact Nat.le_trans (Nat.le_succ pos) (ih (pos + 1) 0)
    · rw [if_neg h1]

theorem specialPositions_le (buf : List Nat) :
    ∀ q ∈ specialPositions buf, q ≤ buf.length := by
  intro q hq
  obtain ⟨t, _, ht⟩ := List.mem_filterMap.mp hq
  obtain ⟨_, hle, _, _⟩ := findFrom_some ht
  exact Nat.le_trans (Nat.le_add_right q t.length) hle

theorem vocab_start_le (buf : List Nat) : (find_vocab_section buf).1 ≤ buf.length := by
  show (match specialPositions buf with
    | [] => 0
    | p :: rest => rest.foldl min p) ≤ buf.length
  match hsp : specialPositions buf with
  | [] => exact Nat.zero_le _
  | p :: rest =>
    have hmem := foldl_min_mem rest p
    rw [← hsp] at hmem
    exact specialPositions_le buf _ hmem

theorem zeroRunCount_lt_start (buf : List Nat) (start p : Nat) (h : p < start) :
    zeroRunCount buf start p = 0 := by
  cases p with
  | zero =>
    rw [zeroRunCount, if_neg]
    rintro ⟨h0, _⟩
    omega
  | succ q =>
    rw [zeroRunCount, if_neg]
    rintro ⟨hle, _⟩
    omega

theorem zeroRunBefore_self (buf : List Nat) (start : Nat) :
    zeroRunBefore buf start start = 0 := by
  cases start with
  | zero => rfl
  | succ q => exact zeroRunCount_lt_start buf (q + 1) q (Nat.lt_succ_self q)

theorem zeroRunCount_here (buf : List Nat) (start pos : Nat) (hs : start ≤ pos)
    (hz : ((buf.drop pos).take 1 == [0]) = true) :
    zeroRunCount buf start pos = zeroRunBefore buf start pos + 1 := by
  cases pos with
  | zero =>
    have h0 : start = 0 := Nat.le_zero.mp hs
    rw [zeroRunCount, if_pos ⟨h0, hz⟩]
    rfl
  | succ q =>
    rw [zeroRunCount, if_pos ⟨hs, hz⟩]
    rfl

theorem zeroRunCount_not_zero_byte (buf : List Nat) (start pos : Nat)
    (hz : ¬((buf.drop pos).take 1 == [0]) = true) :
    zeroRunCount buf start pos = 0 := by
  cases pos with
  | zero =>
    rw [zeroRunCount, if_neg]
    rintro ⟨_, h⟩
    exact hz h
  | succ q =>
    rw [zeroRunCount, if_neg]
    rintro ⟨_, h⟩
    exact hz h

theorem scanNulls_find (buf : List Nat) (start : Nat) :
    ∀ (fuel pos nc : Nat), buf.length ≤ pos + fuel → start ≤ pos → pos ≤ buf.length →
      nc = zeroRunBefore buf start pos → nc ≤ 100 →
      scanNulls fuel buf pos nc =
        (match (List.range' pos (buf.length - pos)).find?
            (fun p => decide (100 < zeroRunCount buf start p)) with
        | some p => p
        | none => buf.length) := by
  intro fuel
  induction fuel with
  | zero =>
    intro pos nc hf _ hl _ _
    have hpe : pos = buf.length := by omega
    subst hpe
    simp [scanNulls, Nat.sub_self]
  | succ f ih =>
    intro pos nc hf hs hl hnc hnc100
    by_cases hp : pos < buf.length
    · have hrange : buf.length - pos = (buf.length - (pos + 1)) + 1 := by omega
      rw [hrange, List.range'_succ, scanNulls, if_pos hp]
      by_cases hz : ((buf.drop pos).take 1 == [0]) = true
      · rw [if_pos hz]
        have hzrc : zeroRunCount buf start pos = nc + 1 := by
          rw [zeroRunCount_here buf start pos hs hz, ← hnc]
        have hnext : nc + 1 = zeroRunBefore buf start (pos + 1) := hzrc.symm
        by_cases h100 : 100 < nc + 1
        · rw [if_pos h100]
          have hfc : (pos :: List.range' (pos + 1) (buf.length - (pos + 1))).find?
              (fun p => decide (100 < zeroRunCount buf start p)) = some pos :=
            List.find?_cons_of_pos _ (by simp [hzrc, h100])
          rw [hfc]
        · rw [if_neg h100]
          have hfc : (pos :: List.range' (pos + 1) (buf.length - (pos + 1))).find?
              (fun p => decide (100 < zeroRunCount buf start p)) =
              (List.range' (pos + 1) (buf.length - (pos + 1))).find?
                (fun p => decide (100 < zeroRunCount buf start p)) :=
            List.find?_cons_of_neg _ (by simp [hzrc]; omega)
          rw [hfc]
          exact ih (pos + 1) (nc + 1) (by omega) (by omega) hp hnext (by omega)
      · rw [if_neg hz]
        have hzrc : zeroRunCount buf start pos = 0 := zeroRunCount_not_zero_byte buf start pos hz
        have hfc : (pos :: List.range' (pos + 1) (buf.length - (pos + 1))).find?
            (fun p => decide (100 < zeroRunCount buf start p)) =
            (List.range' (pos + 1) (buf.length - (pos + 1))).find?
              (fun p => decide (100 < zeroRunCount buf start p)) :=
          List.find?_cons_of_neg _ (by simp [hzrc])
        rw [hfc]
        exact ih (pos + 1) 0 (by omega) (by omega) hp hzrc.symm (by omega)
    · have hpe : pos = buf.length := by omega
      subst hpe
      simp [scanNulls, Nat.sub_self]

/-- C5: for every buffer, the region end produced by the Region Locator is
the first position, scanning forward from the computed start, at which the
count of consecutive zero bytes exceeds 100, and the buffer length when no
such position exists before the end of the buffer. -/
theorem vocab_region_end_spec (buf : List Nat) :
    (find_vocab_section buf).2 = specRegionEnd buf (find_vocab_section buf).1 := by
  have hslen : (find_vocab_section buf).1 ≤ buf.length := vocab_start_le buf
  have hnc : (0 : Nat) = zeroRunBefore buf (find_vocab_section buf).1 (find_vocab_section buf).1 :=
    (zeroRunBefore_self buf (find_vocab_section buf).1).symm
  have hmain := scanNulls_find buf (find_vocab_section buf).1 (buf.length + 1)
    (find_vocab_section buf).1 0 (by omega) (Nat.le_refl _) hslen hnc (by omega)
  have h2 : (find_vocab_section buf).2 =
      min buf.length (scanNulls (buf.length + 1) buf (find_vocab_section buf).1 0) := rfl
  rw [h2, hmain]
  cases hf : (List.range' (find_vocab_section buf).1 (buf.length - (find_vocab_section buf).1)).find?
      (fun p => decide (100 < zeroRunCount buf (find_vocab_section buf).1 p)) with
  | none => simp [specRegionEnd, hf]
  | some p =>
    have hmem := List.mem_of_find?_eq_some hf
    have hplen : p < buf.length := by
      have := (List.mem_range'_1.mp hmem).2
      omega
    simp [specRegionEnd, hf, Nat.min_eq_right (Nat.le_of_lt hplen)]

theorem scanContent_ge (fuel : Nat) (buf : List Nat) (endR bound : Nat) :
    ∀ (ce : Nat) (found : Bool), ce ≤ (scanContent fuel buf endR bound ce found).1 := by
  induction fuel with
  | zero =>
    intro ce found
    exact Nat.le_refl ce
  | succ f ih =>
    intro ce found
    rw [scanContent]
    by_cases h1 : ce < min endR bound
    · rw [if_pos h1]
      by_cases h2 : (matchAt buf boundaryB ce || ((buf.drop ce).take 1 == [0])) = true
      · rw [if_pos h2]
      · rw [if_neg h2]
        exact Nat.le_trans (Nat.le_succ ce) (ih (ce + 1) _)
    · rw [if_neg h1]

theorem scanContent_le_endR (fuel : Nat) (buf : List Nat) (endR bound : Nat) :
    ∀ (ce : Nat) (found : Bool), ce ≤ endR → (scanContent fuel buf endR bound ce found).1 ≤ endR := by
  induction fuel with
  | zero =>
    intro ce found h
    exact h
  | succ f ih =>
    intro ce found h
    rw [scanContent]
    by_cases h1 : ce < min endR bound
    · rw [if_pos h1]
      by_cases h2 : (matchAt buf boundaryB ce || ((buf.drop ce).take 1 == [0])) = true
      · rw [if_pos h2]
        exact h
      · rw [if_neg h2]
        exact ih (ce + 1) _ (by omega)
    · rw [if_neg h1]
      exact h

theorem scanContent_le_bound (fuel : Nat) (buf : List Nat) (endR bound : Nat) :
    ∀ (ce : Nat) (found : Bool), ce ≤ bound →
      (scanContent fuel buf endR bound ce found).1 ≤ bound := by
  induction fuel with
  | zero =>
    intro ce found h
    exact h
  | succ f ih =>
    intro ce found h
    rw [scanContent]
    by_cases h1 : ce < min endR bound
    · rw [if_pos h1]
      by_cases h2 : (matchAt buf boundaryB ce || ((buf.drop ce).take 1 == [0])) = true
      · rw [if_pos h2]
        exact h
      · rw [if_neg h2]
        exact ih (ce + 1) _ (by omega)
    · rw [if_neg h1]
      exact h

theorem found_iff_trivial (buf : List Nat) (ce : Nat) (found : Bool) :
    found = true ↔
      found = true ∨ ∃ j, ce ≤ j ∧ j < ce ∧ 32 ≤ buf.getD j 0 ∧ buf.getD j 0 ≤ 126 := by
  constructor
  · exact Or.inl
  · rintro (h | ⟨j, h1, h2, _⟩)
    · exact h
    · omega

theorem scanContent_found_iff (fuel : Nat) (buf : List Nat) (endR bound : Nat) :
    ∀ (ce : Nat) (found : Bool),
      ((scanContent fuel buf endR bound ce found).2 = true ↔
        found = true ∨ ∃ j, ce ≤ j ∧ j < (scanContent fuel buf endR bound ce found).1 ∧
          32 ≤ buf.getD j 0 ∧ buf.getD j 0 ≤ 126) := by
  induction fuel with
  | zero =>
    intro ce found
    exact found_iff_trivial buf ce found
  | succ f ih =>
    intro ce found
    rw [scanContent]
    by_cases h1 : ce < min endR bound
    · rw [if_pos h1]
      by_cases h2 : (matchAt buf boundaryB ce || ((buf.drop ce).take 1 == [0])) = true
      · rw [if_pos h2]
        exact found_iff_trivial buf ce found
      · rw [if_neg h2]
        rw [ih (ce + 1) (found || decide (32 ≤ buf.getD ce 0 ∧ buf.getD ce 0 ≤ 126))]
        constructor
        · rintro (hor | ⟨j, hj1, hj2, hj3, hj4⟩)
          · rcases Bool.or_eq_true_iff.mp hor with hf | hd
            · exact Or.inl hf
            · have hp := of_decide_eq_true hd
              refine Or.inr ⟨ce, Nat.le_refl ce, ?_, hp.1, hp.2⟩
              exact Nat.lt_of_lt_of_le (Nat.lt_succ_self ce) (scanContent_ge f buf endR bound _ _)
          · exact Or.inr ⟨j, by omega, hj2, hj3, hj4⟩
        · rintro (hf | ⟨j, hj1, hj2, hj3, hj4⟩)
          · exact Or.inl (by simp [hf])
          · rcases Nat.eq_or_lt_of_le hj1 with rfl | hlt
            · refine Or.inl ?_
              rw [Bool.or_eq_true]
              exact Or.inr (decide_eq_true ⟨hj3, hj4⟩)
            · exact Or.inr ⟨j, hlt, hj2, hj3, hj4⟩
    · rw [if_neg h1]
      exact found_iff_trivial buf ce found

theorem scanContent_no_break (fuel : Nat) (buf : List Nat) (endR bound : Nat) :
    ∀ (ce : Nat) (found : Bool) (j : Nat), ce ≤ j →
      j < (scanContent fuel buf endR bound ce found).1 →
      matchAt buf boundaryB j = false ∧ ((buf.drop j).take 1 == [0]) = false := by
  induction fuel with
  | zero =>
    intro ce found j h1 h2
    have h3 : j < ce := h2
    omega
  | succ f ih =>
    intro ce found j h1 h2
    rw [scanContent] at h2
    by_cases hc : ce < min endR bound
    · rw [if_pos hc] at h2
      by_cases hb : (matchAt buf boundaryB ce || ((buf.drop ce).take 1 == [0])) = true
      · rw [if_pos hb] at h2
        have h3 : j < ce := h2
        omega
      · rw [if_neg hb] at h2
        rcases Nat.eq_or_lt_of_le h1 with rfl | hlt
        · simp only [Bool.or_eq_true, not_or, Bool.not_eq_true] at hb
          exact hb
        · exact ih (ce + 1) _ j hlt h2
    · rw [if_neg hc] at h2
      have h3 : j < ce := h2
      omega

theorem findNextToken_some (fuel : Nat) (buf : List Nat) :
    ∀ (pos endR p : Nat) (tok : List Nat), findNextToken fuel buf pos endR = some (p, tok) →
      pos ≤ p ∧ p + 3 ≤ endR ∧ matchAt buf boundaryB p = true ∧
        tok = (buf.drop p).take ((scanContent 101 buf endR (p + 3 + 100) (p + 3) false).1 - p) ∧
        (scanContent 101 buf endR (p + 3 + 100) (p + 3) false).2 = true ∧ 3 < tok.length := by
  induction fuel with
  | zero =>
    intro pos endR p tok h
    simp [findNextToken] at h
  | succ f ih =>
    intro pos endR p tok h
    rw [findNextToken] at h
    by_cases h1 : pos < endR - 3
    · rw [if_pos h1] at h
      cases hff : findFrom (endR + 1) buf boundaryB endR pos with
      | none =>
        rw [hff] at h
        exact absurd h (by simp)
      | some q =>
        obtain ⟨hq1, hq2, hq3, _⟩ := findFrom_some hff
        have hq2' : q + 3 ≤ endR := hq2
        simp only [hff] at h
        by_cases hacc : ((scanContent 101 buf endR (q + 3 + 100) (q + 3) false).2 &&
            decide (3 < ((buf.drop q).take
              ((scanContent 101 buf endR (q + 3 + 100) (q + 3) false).1 - q)).length)) = true
        · rw [if_pos hacc] at h
          simp only [Option.some.injEq, Prod.mk.injEq] at h
          obtain ⟨rfl, rfl⟩ := h
          simp only [Bool.and_eq_true, decide_eq_true_eq] at hacc
          exact ⟨hq1, hq2', hq3, rfl, hacc.1, hacc.2⟩
        · rw [if_neg hacc] at h
          obtain ⟨hp1, rest⟩ := ih _ _ _ _ h
          exact ⟨by omega, rest⟩
    · rw [if_neg h1] at h
      exact absurd h (by simp)

theorem segmentAll_mem (fuel : Nat) (buf : List Nat) :
    ∀ (pos endR : Nat) (r : Nat × List Nat), r ∈ segmentAll fuel buf pos endR →
      pos ≤ r.1 ∧ matchAt buf boundaryB r.1 = true ∧ r.1 + 3 ≤ endR ∧
        r.2 = (buf.drop r.1).take
          ((scanContent 101 buf endR (r.1 + 3 + 100) (r.1 + 3) false).1 - r.1) ∧
        (scanContent 101 buf endR (r.1 + 3 + 100) (r.1 + 3) false).2 = true ∧
        3 < r.2.length := by
  induction fuel with
  | zero =>
    intro pos endR r h
    simp [segmentAll] at h
  | succ f ih =>
    intro pos endR r h
    rw [segmentAll] at h
    cases hft : findNextToken (endR + 1) buf pos endR with
    | none =>
      rw [hft] at h
      simp at h
    | some pr =>
      obtain ⟨p, token⟩ := pr
      rw [hft] at h
      obtain ⟨hle, h3e, hm, htok, hsc, hlen⟩ := findNextToken_some _ _ _ _ _ _ hft
      rcases List.mem_cons.mp h with rfl | h
      · exact ⟨hle, hm, h3e, htok, hsc, hlen⟩
      · obtain ⟨hle2, rest⟩ := ih _ _ _ h
        exact ⟨by omega, rest⟩

theorem segmentAll_pairwise (fuel : Nat) (buf : List Nat) :
    ∀ (pos endR : Nat), List.Pairwise (fun a b => a.1 < b.1) (segmentAll fuel buf pos endR) := by
  induction fuel with
  | zero =>
    intro pos endR
    simp [segmentAll]
  | succ f ih =>
    intro pos endR
    rw [segmentAll]
    cases hft : findNextToken (endR + 1) buf pos endR with
    | none => simp
    | some pr =>
      obtain ⟨p, token⟩ := pr
      obtain ⟨_, _, _, _, _, hlen⟩ := findNextToken_some _ _ _ _ _ _ hft
      refine List.Pairwise.cons ?_ (ih _ _)
      intro r hr
      have hge := (segmentAll_mem f buf (p + token.length) endR r hr).1
      show p < r.1
      omega

theorem record_length_eq (buf : List Nat) (endR : Nat) (r : Nat × List Nat)
    (htok : r.2 = (buf.drop r.1).take
      ((scanContent 101 buf endR (r.1 + 3 + 100) (r.1 + 3) false).1 - r.1)) :
    r.2.length = min ((scanContent 101 buf endR (r.1 + 3 + 100) (r.1 + 3) false).1 - r.1)
      (buf.length - r.1) := by
  rw [htok, List.length_take, List.length_drop]

/-- C7: for every buffer and region, the records the Segmenter emits have
strictly increasing offsets, start at or after the region start, end at or
before the region end, and are longer than the 3-byte marker. -/
theorem segmenter_records_invariant (buf : List Nat) (s e : Nat) (_he : e ≤ buf.length) :
    List.Pairwise (fun a b => a.1 < b.1) (segmentTokens buf s e) ∧
      ∀ r ∈ segmentTokens buf s e, s ≤ r.1 ∧ r.1 + r.2.length ≤ e ∧ 3 < r.2.length := by
  refine ⟨segmentAll_pairwise _ buf s e, fun r hr => ?_⟩
  obtain ⟨h1, hm, h3e, htok, hsc, hlen⟩ := segmentAll_mem _ buf s e r hr
  have hce : (scanContent 101 buf e (r.1 + 3 + 100) (r.1 + 3) false).1 ≤ e :=
    scanContent_le_endR 101 buf e (r.1 + 3 + 100) (r.1 + 3) false (by omega)
  have hge := scanContent_ge 101 buf e (r.1 + 3 + 100) (r.1 + 3) false
  have hlen2 := record_length_eq buf e r htok
  exact ⟨h1, by omega, hlen⟩

/-- C9: every record the Segmenter emits is at most 103 bytes long: the
3-byte marker plus the 100-byte look-ahead limit. -/
theorem segmenter_record_length_le (buf : List Nat) (s e : Nat) (_he : e ≤ buf.length) :
    ∀ r ∈ segmentTokens buf s e, r.2.length ≤ 103 := by
  intro r hr
  obtain ⟨_, _, h3e, htok, _, _⟩ := segmentAll_mem _ buf s e r hr
  have hb : (scanContent 101 buf e (r.1 + 3 + 100) (r.1 + 3) false).1 ≤ r.1 + 3 + 100 :=
    scanContent_le_bound 101 buf e (r.1 + 3 + 100) (r.1 + 3) false (by omega)
  have hlen2 := record_length_eq buf e r htok
  omega

/-- C10: every record the Segmenter emits starts with the 3-byte boundary
marker, and none of its content bytes is a null byte or the start of
another boundary-marker occurrence in the buffer. -/
theorem segmenter_record_shape (buf : List Nat) (s e : Nat) (_he : e ≤ buf.length) :
    ∀ r ∈ segmentTokens buf s e,
      r.2.take 3 = boundaryB ∧
        ∀ j, r.1 + 3 ≤ j → j < r.1 + r.2.length →
          buf.getD j 0 ≠ 0 ∧ matchAt buf boundaryB j = false := by
  intro r hr
  obtain ⟨_, hm, h3e, htok, hsc, hlen⟩ := segmentAll_mem _ buf s e r hr
  have hge := scanContent_ge 101 buf e (r.1 + 3 + 100) (r.1 + 3) false
  have hlen2 := record_length_eq buf e r htok
  constructor
  · rw [htok, List.take_take]
    have hmin3 : min 3 ((scanContent 101 buf e (r.1 + 3 + 100) (r.1 + 3) false).1 - r.1) = 3 := by
      omega
    rw [hmin3]
    have hmm : ((buf.drop r.1).take boundaryB.length == boundaryB) = true := hm
    have hL : boundaryB.length = 3 := rfl
    rw [hL] at hmm
    exact beq_iff_eq.mp hmm
  · intro j hj1 hj2
    have hjce : j < (scanContent 101 buf e (r.1 + 3 + 100) (r.1 + 3) false).1 := by omega
    have hnb := scanContent_no_break 101 buf e (r.1 + 3 + 100) (r.1 + 3) false j hj1 hjce
    refine ⟨?_, hnb.1⟩
    have hjlen : j < buf.length := by omega
    have h2 := hnb.2
    rw [List.drop_eq_getElem_cons hjlen] at h2
    simp only [List.take_succ_cons, List.take_zero] at h2
    rw [List.getD_eq_getElem buf 0 hjlen]
    intro hc
    rw [hc] at h2
    simp at h2

/-- C4: for every buffer the Region Locator returns a well-formed region:
`0 ≤ start ≤ end ≤ len(buffer)`; the start is the minimum offset among the
matched special-token markers when at least one matched, and 0 when none
matched. -/
theorem vocab_region_bounds (buf : List Nat) :
    0 ≤ (find_vocab_section buf).1 ∧
      (find_vocab_section buf).1 ≤ (find_vocab_section buf).2 ∧
      (find_vocab_section buf).2 ≤ buf.length ∧
      (specialPositions buf ≠ [] →
        (find_vocab_section buf).1 ∈ specialPositions buf ∧
          ∀ q ∈ specialPositions buf, (find_vocab_section buf).1 ≤ q) ∧
      (specialPositions buf = [] → (find_vocab_section buf).1 = 0) := by
  refine ⟨Nat.zero_le _, ?_, ?_, ?_, ?_⟩
  · show (find_vocab_section buf).1 ≤ min buf.length (scanNulls (buf.length + 1) buf
      (find_vocab_section buf).1 0)
    exact Nat.le_min.mpr ⟨vocab_start_le buf, scanNulls_ge _ buf _ 0⟩
  · exact Nat.min_le_left _ _
  · intro hne
    obtain ⟨p, rest, hsp⟩ : ∃ p rest, specialPositions buf = p :: rest := by
      cases hsp : specialPositions buf with
      | nil => exact absurd hsp hne
      | cons p rest => exact ⟨p, rest, rfl⟩
    have h1 : (find_vocab_section buf).1 = rest.foldl min p := by
      show (match specialPositions buf with
        | [] => 0
        | p :: rest => rest.foldl min p) = rest.foldl min p
      rw [hsp]
    rw [h1, hsp]
    exact ⟨foldl_min_mem rest p, foldl_min_le rest p⟩
  · intro hsp
    show (match specialPositions buf with
      | [] => 0
      | p :: rest => rest.foldl min p) = 0
    rw [hsp]

/-- C2: at a candidate marker found at offset `p`, the Segmenter accepts
the span as a record iff a printable-ASCII byte was observed in the
scanned content and the span is longer than 3 bytes; on rejection the
search cursor resumes exactly at `p + 1`; in particular a boundary marker
immediately followed by another boundary marker is rejected at `p`. -/
theorem segmenter_accept_iff (buf : List Nat) (fuel pos endR p : Nat)
    (_hreg : endR ≤ buf.length) (hcond : pos < endR - 3)
    (hff : findFrom (endR + 1) buf boundaryB endR pos = some p) :
    ((scanContent 101 buf endR (p + 3 + 100) (p + 3) false).2 = true ↔
      ∃ j, p + 3 ≤ j ∧ j < (scanContent 101 buf endR (p + 3 + 100) (p + 3) false).1 ∧
        32 ≤ buf.getD j 0 ∧ buf.getD j 0 ≤ 126) ∧
    (((scanContent 101 buf endR (p + 3 + 100) (p + 3) false).2 = true ∧
        3 < ((buf.drop p).take
          ((scanContent 101 buf endR (p + 3 + 100) (p + 3) false).1 - p)).length) →
      findNextToken (fuel + 1) buf pos endR =
        some (p, (buf.drop p).take
          ((scanContent 101 buf endR (p + 3 + 100) (p + 3) false).1 - p))) ∧
    (((scanContent 101 buf endR (p + 3 + 100) (p + 3) false).2 = false ∨
        ¬3 < ((buf.drop p).take
          ((scanContent 101 buf endR (p + 3 + 100) (p + 3) false).1 - p)).length) →
      findNextToken (fuel + 1) buf pos endR = findNextToken fuel buf (p + 1) endR) ∧
    (matchAt buf boundaryB (p + 3) = true →
      findNextToken (fuel + 1) buf pos endR = findNextToken fuel buf (p + 1) endR) := by
  refine ⟨?_, ?_, ?_, ?_⟩
  · have h := scanContent_found_iff 101 buf endR (p + 3 + 100) (p + 3) false
    simpa using h
  · intro hacc
    rw [findNextToken, if_pos hcond]
    simp only [hff]
    have hc : ((scanContent 101 buf endR (p + 3 + 100) (p + 3) false).2 &&
        decide (3 < ((buf.drop p).take
          ((scanContent 101 buf endR (p + 3 + 100) (p + 3) false).1 - p)).length)) = true := by
      rw [Bool.and_eq_true]
      exact ⟨hacc.1, decide_eq_true hacc.2⟩
    rw [if_pos hc]
  · intro hrej
    rw [findNextToken, if_pos hcond]
    simp only [hff]
    have hc : ((scanContent 101 buf endR (p + 3 + 100) (p + 3) false).2 &&
        decide (3 < ((buf.drop p).take
          ((scanContent 101 buf endR (p + 3 + 100) (p + 3) false).1 - p)).length)) = false := by
      rcases hrej with h | h
      · rw [h, Bool.false_and]
      · rw [decide_eq_false h, Bool.and_false]
    rw [hc]
    simp
  · intro hmk
    have hsc : scanContent 101 buf endR (p + 3 + 100) (p + 3) false = (p + 3, false) := by
      have h101 : (101 : Nat) = 100 + 1 := rfl
      rw [h101, scanContent]
      by_cases hcc : p + 3 < min endR (p + 3 + 100)
      · rw [if_pos hcc, if_pos (by rw [Bool.or_eq_true]; exact Or.inl hmk)]
      · rw [if_neg hcc]
    rw [findNextToken, if_pos hcond]
    simp only [hff]
    rw [hsc]
    simp

theorem take_four_of_length_le (l : List Nat) (h : 4 ≤ l.length) :
    l.take 4 = [l.getD 0 0, l.getD 1 0, l.getD 2 0, l.getD 3 0] := by
  rcases l with _ | ⟨a, _ | ⟨b, _ | ⟨c, _ | ⟨d, t⟩⟩⟩⟩ <;> first | rfl | (simp at h)

theorem getD_drop' (buf : List Nat) (i k : Nat) : (buf.drop i).getD k 0 = buf.getD (i + k) 0 := by
  rw [List.getD_eq_getElem?_getD, List.getD_eq_getElem?_getD, List.getElem?_drop]

theorem take_four_window (buf : List Nat) (i : Nat) (h : i + 4 ≤ buf.length) :
    (buf.drop i).take 4 =
      [buf.getD i 0, buf.getD (i + 1) 0, buf.getD (i + 2) 0, buf.getD (i + 3) 0] := by
  rw [take_four_of_length_le (buf.drop i) (by rw [List.length_drop]; omega),
    getD_drop', getD_drop', getD_drop', getD_drop']
  norm_num

theorem idsAt_eq_emitAt (buf : List Nat) (pos i : Nat) (hp : i + 4 ≤ pos)
    (hl : i + 4 ≤ buf.length) : idsAt buf pos i = emitAt buf i := by
  rw [idsAt, if_pos hp, take_four_window buf i hl]
  rfl

theorem idsAt_short (buf : List Nat) (pos i : Nat) (hl : buf.length < i + 4) :
    idsAt buf pos i = [] := by
  rw [idsAt]
  by_cases hp : i + 4 ≤ pos
  · rw [if_pos hp]
    have hlen : ((buf.drop i).take 4).length < 4 := by
      rw [List.length_take, List.length_drop]
      omega
    rcases htake : (buf.drop i).take 4 with _ | ⟨b0, _ | ⟨b1, _ | ⟨b2, _ | ⟨b3, t⟩⟩⟩⟩
    · rfl
    · rfl
    · rfl
    · rfl
    · rw [htake] at hlen
      simp only [List.length_cons] at hlen
      omega
  · rw [if_neg hp]

theorem idsAt_gt_pos (buf : List Nat) (pos i : Nat) (hp : ¬i + 4 ≤ pos) :
    idsAt buf pos i = [] := by
  rw [idsAt, if_neg hp]

theorem flatMap_eq_filter_flatMap (l : List Nat) (f g : Nat → List (Nat × Endian))
    (q : Nat → Bool) (h1 : ∀ i ∈ l, q i = true → f i = g i)
    (h2 : ∀ i ∈ l, ¬q i = true → f i = []) :
    l.flatMap f = (l.filter q).flatMap g := by
  induction l with
  | nil => rfl
  | cons a t ih =>
    rw [List.flatMap_cons, List.filter_cons]
    by_cases hq : q a = true
    · rw [if_pos hq, List.flatMap_cons, h1 a (List.mem_cons_self a t) hq]
      rw [ih (fun i hi => h1 i (List.mem_cons.mpr (Or.inr hi)))
        (fun i hi => h2 i (List.mem_cons.mpr (Or.inr hi)))]
    · rw [if_neg hq, h2 a (List.mem_cons_self a t) hq, List.nil_append]
      exact ih (fun i hi => h1 i (List.mem_cons.mpr (Or.inr hi)))
        (fun i hi => h2 i (List.mem_cons.mpr (Or.inr hi)))

theorem idsAt_val_range (buf : List Nat) (pos i : Nat) :
    ∀ c ∈ idsAt buf pos i, 0 < c.1 ∧ c.1 < 100000 := by
  intro c hc
  rw [idsAt] at hc
  by_cases hp : i + 4 ≤ pos
  · rw [if_pos hp] at hc
    have hlen4 : ((buf.drop i).take 4).length ≤ 4 := List.length_take_le 4 _
    rcases htake : (buf.drop i).take 4 with _ | ⟨b0, _ | ⟨b1, _ | ⟨b2, _ | ⟨b3, t⟩⟩⟩⟩ <;>
      rw [htake] at hc <;> try (exact absurd hc (List.not_mem_nil c))
    have ht : t = [] := by
      rw [htake] at hlen4
      simp only [List.length_cons] at hlen4
      exact List.length_eq_zero.mp (by omega)
    subst ht
    rcases List.mem_append.mp hc with h | h
    · split at h
      · rename_i hcond
        rw [List.mem_singleton] at h
        rw [h]
        exact hcond
      · exact absurd h (List.not_mem_nil c)
    · split at h
      · rename_i hcond
        rw [List.mem_singleton] at h
        rw [h]
        exact hcond.1
      · exact absurd h (List.not_mem_nil c)
  · rw [if_neg hp] at hc
    exact absurd hc (List.not_mem_nil c)

theorem emitAt_pairwise (buf : List Nat) (i : Nat) :
    List.Pairwise (fun a b => a.1 ≠ b.1) (emitAt buf i) := by
  rw [emitAt]
  by_cases h1 : 0 < valLE buf i ∧ valLE buf i < 100000 <;>
    by_cases h2 : (0 < valBE buf i ∧ valBE buf i < 100000) ∧ valBE buf i ≠ valLE buf i
  · rw [if_pos h1, if_pos h2]
    refine List.Pairwise.cons ?_ (by simp)
    intro b hb
    have hb2 : b = (valBE buf i, Endian.BE) := by simpa using hb
    rw [hb2]
    exact Ne.symm h2.2
  · rw [if_pos h1, if_neg h2]
    simp
  · rw [if_neg h1, if_pos h2]
    simp
  · rw [if_neg h1, if_neg h2]
    simp

/-- C3: the Inferrer probes exactly the offsets of the 8-byte window before
the token that leave room for a 4-byte read, in ascending order, and at
each available offset emits the little-endian value iff it lies strictly
between 0 and 100000, then the big-endian value iff it lies in that range
and differs from the little-endian value; consequently every candidate
value lies strictly between 0 and 100000 and no probed offset contributes
two candidates with equal value. -/
theorem inferrer_emission_spec (buf : List Nat) (pos vocab_start : Nat) :
    analyze_token buf pos vocab_start =
      ((List.range' (max vocab_start (pos - 8)) (pos - max vocab_start (pos - 8))).filter
        (fun i => decide (i + 4 ≤ pos))).flatMap
        (fun i => if i + 4 ≤ buf.length then emitAt buf i else []) ∧
      (∀ c ∈ analyze_token buf pos vocab_start, 0 < c.1 ∧ c.1 < 100000) ∧
      (∀ i : Nat, List.Pairwise (fun a b => a.1 ≠ b.1) (emitAt buf i)) := by
  refine ⟨?_, ?_, fun i => emitAt_pairwise buf i⟩
  · rw [analyze_token]
    refine flatMap_eq_filter_flatMap _ _ _ _ ?_ ?_
    · intro i _ hq
      have hp := of_decide_eq_true hq
      by_cases hl : i + 4 ≤ buf.length
      · rw [if_pos hl]
        exact idsAt_eq_emitAt buf pos i hp hl
      · rw [if_neg hl]
        exact idsAt_short buf pos i (by omega)
    · intro i _ hq
      exact idsAt_gt_pos buf pos i (fun hp => hq (decide_eq_true hp))
  · intro c hc
    rw [analyze_token] at hc
    obtain ⟨i, _, hci⟩ := List.mem_flatMap.mp hc
    exact idsAt_val_range buf pos i c hci

/-- C8: the Inferrer never fails near buffer edges: an offset whose 4-byte
window runs off the buffer contributes no candidate and is skipped, so the
output is the emission over only the probed offsets with a full window. -/
theorem inferrer_edge_skip (buf : List Nat) (pos vocab_start : Nat) :
    analyze_token buf pos vocab_start =
      ((List.range' (max vocab_start (pos - 8)) (pos - max vocab_start (pos - 8))).filter
        (fun i => decide (i + 4 ≤ pos) && decide (i + 4 ≤ buf.length))).flatMap (emitAt buf) ∧
      ∀ i : Nat, buf.length < i + 4 → idsAt buf pos i = [] := by
  refine ⟨?_, fun i h => idsAt_short buf pos i h⟩
  rw [analyze_token]
  refine flatMap_eq_filter_flatMap _ _ _ _ ?_ ?_
  · intro i _ hq
    rw [Bool.and_eq_true] at hq
    exact idsAt_eq_emitAt buf pos i (of_decide_eq_true hq.1) (of_decide_eq_true hq.2)
  · intro i _ hq
    by_cases hp : i + 4 ≤ pos
    · refine idsAt_short buf pos i ?_
      by_contra hl
      push_neg at hl
      exact hq (by rw [Bool.and_eq_true]; exact ⟨decide_eq_true hp, decide_eq_true (by omega)⟩)
    · exact idsAt_gt_pos buf pos i hp

/-- C6: a positive window overrides the displayed count to the window size
and recomputes the skip as max(0, skip - window/2); in particular skip
1000 with window 150 yields the effective skip 925 and count 150. -/
theorem window_adjust_spec (num_tokens skip window : Int) (h : 0 < window) :
    listTokensParams num_tokens skip window = (window, max 0 (skip - Int.fdiv window 2)) ∧
      listTokensParams num_tokens 1000 150 = (150, 925) := by
  constructor
  · rw [listTokensParams, if_pos h]
  · rw [listTokensParams, if_pos (by decide : (0 : Int) < 150)]
    decide

/-- C1 (counterexample): on a buffer with the padding marker at offset 10
and a 150-byte zero run at offsets 50-199, the Region Locator does not
return the region [10, 151) the claim asserts. -/
theorem c1_region_off_by_one : find_vocab_section c1buf ≠ (10, 151) := by decide

/-- C1 (amended): on that buffer the locator returns the region [10, 150):
the null-run count first exceeds 100 at offset 150, the 101st consecutive
zero byte, and the scan stops at that offset without advancing past it. -/
theorem c1_region_amended : find_vocab_section c1buf = (10, 150) := by decide

/-- Witness for C2 at the two-adjacent-markers buffer: the marker at
offset 0 has no printable content before the next marker, is rejected,
and the search resumes at offset 1. -/
theorem segmenter_accept_iff_witness :
    (10 ≤ markerPairBuf.length ∧ 0 < 10 - 3 ∧
        findFrom (10 + 1) markerPairBuf boundaryB 10 0 = some 0) ∧
      (((scanContent 101 markerPairBuf 10 (0 + 3 + 100) (0 + 3) false).2 = true ↔
        ∃ j, 0 + 3 ≤ j ∧ j < (scanContent 101 markerPairBuf 10 (0 + 3 + 100) (0 + 3) false).1 ∧
          32 ≤ markerPairBuf.getD j 0 ∧ markerPairBuf.getD j 0 ≤ 126) ∧
      (((scanContent 101 markerPairBuf 10 (0 + 3 + 100) (0 + 3) false).2 = true ∧
          3 < ((markerPairBuf.drop 0).take
            ((scanContent 101 markerPairBuf 10 (0 + 3 + 100) (0 + 3) false).1 - 0)).length) →
        findNextToken (5 + 1) markerPairBuf 0 10 =
          some (0, (markerPairBuf.drop 0).take
            ((scanContent 101 markerPairBuf 10 (0 + 3 + 100) (0 + 3) false).1 - 0))) ∧
      (((scanContent 101 markerPairBuf 10 (0 + 3 + 100) (0 + 3) false).2 = false ∨
          ¬3 < ((markerPairBuf.drop 0).take
            ((scanContent 101 markerPairBuf 10 (0 + 3 + 100) (0 + 3) false).1 - 0)).length) →
        findNextToken (5 + 1) markerPairBuf 0 10 = findNextToken 5 markerPairBuf 1 10) ∧
      (matchAt markerPairBuf boundaryB (0 + 3) = true →
        findNextToken (5 + 1) markerPairBuf 0 10 = findNextToken 5 markerPairBuf 1 10)) :=
  ⟨⟨by decide, by decide, by decide⟩,
    segmenter_accept_iff markerPairBuf 5 0 10 0 (by decide) (by decide) (by decide)⟩

/-- Witness for C3: the candidate (1, little-endian) is emitted on a
concrete buffer and its value lies strictly between 0 and 100000. -/
theorem inferrer_emission_spec_witness :
    (1, Endian.LE) ∈ analyze_token idBuf 8 0 ∧
      0 < (1, Endian.LE).1 ∧ (1, Endian.LE).1 < 100000 :=
  ⟨by decide, (inferrer_emission_spec idBuf 8 0).2.1 (1, Endian.LE) (by decide)⟩

/-- Witness for C4: on a buffer whose only special-token match is at
offset 0, the region start is that minimum matched offset. -/
theorem vocab_region_bounds_witness :
    specialPositions eosBuf ≠ [] ∧
      ((find_vocab_section eosBuf).1 ∈ specialPositions eosBuf ∧
        ∀ q ∈ specialPositions eosBuf, (find_vocab_section eosBuf).1 ≤ q) :=
  ⟨by decide, (vocab_region_bounds eosBuf).2.2.2.1 (by decide)⟩

/-- Witness for C6: skip 1000 with window 150 yields count 150 and
effective skip 925. -/
theorem window_adjust_spec_witness :
    (0 : Int) < 150 ∧
      (listTokensParams 50 1000 150 = (150, max 0 (1000 - Int.fdiv 150 2)) ∧
        listTokensParams 50 1000 150 = (150, 925)) :=
  ⟨by decide, window_adjust_spec 50 1000 150 (by decide)⟩

/-- Witness for C7 on the demonstration buffer: its single record starts
at the region start, fits in the region, and is longer than 3 bytes. -/
theorem segmenter_records_invariant_witness :
    9 ≤ demoBuf.length ∧
      (0, [226, 150, 129, 104, 101, 108, 108, 111]) ∈ segmentTokens demoBuf 0 9 ∧
      List.Pairwise (fun a b => a.1 < b.1) (segmentTokens demoBuf 0 9) ∧
      (0 ≤ 0 ∧ 0 + ([226, 150, 129, 104, 101, 108, 108, 111] : List Nat).length ≤ 9 ∧
        3 < ([226, 150, 129, 104, 101, 108, 108, 111] : List Nat).length) := by
  have h := segmenter_records_invariant demoBuf 0 9 (by decide)
  exact ⟨by decide, by decide, h.1,
    h.2 (0, [226, 150, 129, 104, 101, 108, 108, 111]) (by decide)⟩

/-- Witness for C8: in a 3-byte buffer the probed offset 2 has no full
4-byte window and contributes no candidate. -/
theorem inferrer_edge_skip_witness :
    shortBuf.length < 2 + 4 ∧ idsAt shortBuf 8 2 = [] :=
  ⟨by decide, (inferrer_edge_skip shortBuf 8 0).2 2 (by decide)⟩

/-- Witness for C9: the demonstration buffer's record is 8 bytes long,
within the 103-byte cap. -/
theorem segmenter_record_length_le_witness :
    9 ≤ demoBuf.length ∧
      (0, [226, 150, 129, 104, 101, 108, 108, 111]) ∈ segmentTokens demoBuf 0 9 ∧
      ([226, 150, 129, 104, 101, 108, 108, 111] : List Nat).length ≤ 103 :=
  ⟨by decide, by decide,
    segmenter_record_length_le demoBuf 0 9 (by decide)
      (0, [226, 150, 129, 104, 101, 108, 108, 111]) (by decide)⟩

/-- Witness for C10: the demonstration buffer's record starts with the
boundary marker and its content bytes are free of nulls and markers. -/
theorem segmenter_record_shape_witness :
    9 ≤ demoBuf.length ∧
      (0, [226, 150, 129, 104, 101, 108, 108, 111]) ∈ segmentTokens demoBuf 0 9 ∧
      (([226, 150, 129, 104, 101, 108, 108, 111] : List Nat).take 3 = boundaryB ∧
        ∀ j, 0 + 3 ≤ j → j < 0 + ([226, 150, 129, 104, 101, 108, 108, 111] : List Nat).length →
          demoBuf.getD j 0 ≠ 0 ∧ matchAt demoBuf boundaryB j = false) :=
  ⟨by decide, by decide,
    segmenter_record_shape demoBuf 0 9 (by decide)
      (0, [226, 150, 129, 104, 101, 108, 108, 111]) (by decide)⟩
